import Mathlib

/-!
Lagrange differentiation matrix of `utils.h`

A shallow embedding of the two function templates of
`app/src/main/cpp/utils.h`:

* `generateCollocationPoints`        (lines 8-12)
* `lagrangeDerivativeCoefficients`   (lines 25-53)

`Scalar` is taken as an exact field, the rationals, extended by one extra
value standing for every non-finite result (IEEE `NaN`, `+Inf`, `-Inf`).
The only way a non-finite value is created in exact arithmetic is a division
by zero, and in both functions every divisor is a finite number, so that a
non-finite operand always gives a non-finite result.
-/

namespace Utils

/-! ## Scalars -/

/-- A scalar: an exact rational, or a non-finite value (`NaN` or an infinity). -/
inductive Scalar where
  | finite (q : ℚ)
  | nonfinite
  deriving DecidableEq

namespace Scalar

/-- Sum of two scalars; a non-finite operand gives a non-finite sum. -/
def add : Scalar → Scalar → Scalar
  | finite a, finite b => finite (a + b)
  | _, _ => nonfinite

/-- Product of two scalars; a non-finite operand gives a non-finite product. -/
def mul : Scalar → Scalar → Scalar
  | finite a, finite b => finite (a * b)
  | _, _ => nonfinite

/-- Quotient of a scalar by a finite divisor.  Dividing by zero gives a
non-finite value (`x / 0` is an infinity or `NaN`), the C++ code has no other
outcome for it: floating-point division does not trap. -/
def div : Scalar → ℚ → Scalar
  | finite a, d => if d = 0 then nonfinite else finite (a / d)
  | nonfinite, _ => nonfinite

instance : Zero Scalar := ⟨finite 0⟩
instance : One Scalar := ⟨finite 1⟩
instance : Add Scalar := ⟨add⟩
instance : Mul Scalar := ⟨mul⟩

/-- Whether the scalar is a number. -/
def isFinite : Scalar → Bool
  | finite _ => true
  | nonfinite => false

end Scalar

/-! ## `generateCollocationPoints` -/

/-- Eigen's `DenseBase::LinSpaced(size, low, high)` for a floating-point
scalar, after its documentation: `size` equally spaced values of the closed
interval `[low, high]`, and for `size = 1` the one value `high`.  Eigen guards
its own step `(high - low) / (size - 1)` for `size = 1`, so every value is
finite. -/
def linSpaced (size : ℕ) (low high : ℚ) : List ℚ :=
  if size = 1 then [high]
  else (List.range size).map fun (i : ℕ) => low + (i : ℚ) * ((high - low) / ((size : ℚ) - 1))

/-- Line 11:
`Matrix<Scalar, n_c, 1>::LinSpaced(n_c, 0, n_c - 1) / (n_c - 1)`.
The quotient of the vector by `n_c - 1` divides each of its values. -/
def generateCollocationPoints (n_c : ℕ) : List Scalar :=
  (linSpaced n_c 0 ((n_c : ℚ) - 1)).map fun v => (Scalar.finite v).div ((n_c : ℚ) - 1)

/-! ## `lagrangeDerivativeCoefficients` -/

/-- Coefficient `i` of the vector of collocation points. -/
def point (collocation_points : List ℚ) (i : ℕ) : ℚ :=
  collocation_points.getD i 0

/-- Lines 34-35: `dt = collocation_points.replicate(1, n_c)` has
`dt(i, j) = c(i)`, and `dt -= dt.transpose()` leaves `dt(i, j) = c(i) - c(j)`. -/
def dt (collocation_points : List ℚ) (i j : ℕ) : ℚ :=
  point collocation_points i - point collocation_points j

/-- The variables of the loop over `k` (lines 41-48).  `divisors` is a ghost
variable: it records, in order, the divisor of every division executed. -/
structure LoopState where
  dc_j_i : Scalar
  temp : Scalar
  divisors : List ℚ
  deriving DecidableEq

/-- Lines 44-47, the body of the loop over `k`. -/
def loopBody (c : List ℚ) (i j : ℕ) (s : LoopState) (k : ℕ) : LoopState :=
  if j ≠ k then
    { dc_j_i := (s.temp + s.dc_j_i * Scalar.finite (dt c i k)).div (dt c j k)
      temp := (s.temp * Scalar.finite (dt c i k)).div (dt c j k)
      divisors := s.divisors ++ [dt c j k, dt c j k] }
  else s

/-- Lines 41-48: `dc_j_i = 0`, `temp = 1`, then the loop over `k < n_c`. -/
def innerLoop (c : List ℚ) (i j : ℕ) : LoopState :=
  (List.range c.length).foldl (loopBody c i j) ⟨0, 1, []⟩

/-- The function of lines 25-53.  The loops over `i` and `j` write every cell
`(j, i)` with `j, i < n_c` exactly once, with the `dc_j_i` its loop over `k`
ends with; the matrix is the list of its rows. -/
def lagrangeDerivativeCoefficients (collocation_points : List ℚ) : List (List Scalar) :=
  (List.range collocation_points.length).map fun j =>
    (List.range collocation_points.length).map fun i =>
      (innerLoop collocation_points i j).dc_j_i

/-- Every divisor used in a call, in the order of execution (ghost). -/
def divisorsUsed (collocation_points : List ℚ) : List ℚ :=
  (List.range collocation_points.length).flatMap fun i =>
    (List.range collocation_points.length).flatMap fun j =>
      (innerLoop collocation_points i j).divisors

/-- Coefficient `(j, i)` of a matrix given by its rows. -/
def coeff (m : List (List Scalar)) (j i : ℕ) : Scalar :=
  (m.getD j []).getD i Scalar.nonfinite

/-- The product `fx * coeffs` of the comment of lines 14-24: the row vector
`fx` times the matrix, in scalar arithmetic. -/
def rowTimes (fx : List Scalar) (coeffs : List (List Scalar)) : List Scalar :=
  (List.range fx.length).map fun i =>
    ((List.range fx.length).map fun j => fx.getD j 0 * coeff coeffs j i).sum

/-- The failures the specification names. -/
inductive BuildError where
  | InvalidSizeError
  | DegenerateInputError
  deriving DecidableEq

/-- A call `build(points)` as the source performs it: the body of
`lagrangeDerivativeCoefficients` has no `throw`, no assertion and no test of
its argument, so every call returns its matrix. -/
def build (points : List ℚ) : Except BuildError (List (List Scalar)) :=
  Except.ok (lagrangeDerivativeCoefficients points)

/-- A call `generate(n_c)` as the source performs it: line 11 is the whole body
of `generateCollocationPoints`, with no `throw`, no assertion and no test of
`n_c`, so every call returns its vector.  For `n_c = 0` the vector has no
element, whatever `n_c - 1` is in the type `Index`. -/
def generate (n_c : ℕ) : Except BuildError (List Scalar) :=
  Except.ok (generateCollocationPoints n_c)

/-- The other product, `coeffs * fx^T`: the matrix times the column vector
`fx`, in scalar arithmetic. -/
def timesColumn (coeffs : List (List Scalar)) (fx : List Scalar) : List Scalar :=
  (List.range fx.length).map fun j =>
    ((List.range fx.length).map fun i => coeff coeffs j i * fx.getD i 0).sum

/-! ## Scalar arithmetic -/

namespace Scalar

@[simp] theorem zero_eq : (0 : Scalar) = finite 0 := rfl

@[simp] theorem one_eq : (1 : Scalar) = finite 1 := rfl

@[simp] theorem finite_add (a b : ℚ) : finite a + finite b = finite (a + b) := rfl

@[simp] theorem finite_mul (a b : ℚ) : finite a * finite b = finite (a * b) := rfl

@[simp] theorem nonfinite_add (s : Scalar) : nonfinite + s = nonfinite := rfl

@[simp] theorem add_nonfinite (s : Scalar) : s + nonfinite = nonfinite := by
  cases s <;> rfl

@[simp] theorem nonfinite_mul (s : Scalar) : nonfinite * s = nonfinite := rfl

@[simp] theorem mul_nonfinite (s : Scalar) : s * nonfinite = nonfinite := by
  cases s <;> rfl

@[simp] theorem nonfinite_div (d : ℚ) : nonfinite.div d = nonfinite := rfl

theorem finite_div (a d : ℚ) :
    (finite a).div d = if d = 0 then nonfinite else finite (a / d) := rfl

@[simp] theorem finite_div_zero (a : ℚ) : (finite a).div 0 = nonfinite := by
  simp [finite_div]

theorem finite_div_of_ne (a : ℚ) {d : ℚ} (hd : d ≠ 0) :
    (finite a).div d = finite (a / d) := by
  simp [finite_div, hd]

@[simp] theorem div_zero (s : Scalar) : s.div 0 = nonfinite := by
  cases s <;> simp

end Scalar

/-! ## The loop over `k` -/

open Polynomial

theorem loopBody_of_ne (c : List ℚ) (i j k : ℕ) (s : LoopState) (h : j ≠ k) :
    loopBody c i j s k =
      { dc_j_i := (s.temp + s.dc_j_i * Scalar.finite (dt c i k)).div (dt c j k)
        temp := (s.temp * Scalar.finite (dt c i k)).div (dt c j k)
        divisors := s.divisors ++ [dt c j k, dt c j k] } := by
  simp [loopBody, h]

theorem loopBody_self (c : List ℚ) (i j : ℕ) (s : LoopState) :
    loopBody c i j s j = s := by
  simp [loopBody]

/-- The ghost variable after a run of the loop over the indices `ks`. -/
theorem foldl_loopBody_divisors (c : List ℚ) (i j : ℕ) (ks : List ℕ) (s : LoopState) :
    (ks.foldl (loopBody c i j) s).divisors =
      s.divisors ++ (ks.filter fun k => j ≠ k).flatMap fun k => [dt c j k, dt c j k] := by
  induction ks generalizing s with
  | nil => simp
  | cons k ks ih =>
    by_cases h : j = k
    · subst h
      simp [ih, loopBody_self]
    · simp [ih, loopBody_of_ne c i j k s h, h]

/-- Once both variables are non-finite they stay so. -/
theorem foldl_loopBody_nonfinite (c : List ℚ) (i j : ℕ) (ks : List ℕ) (s : LoopState)
    (hdc : s.dc_j_i = Scalar.nonfinite) (htemp : s.temp = Scalar.nonfinite) :
    (ks.foldl (loopBody c i j) s).dc_j_i = Scalar.nonfinite ∧
      (ks.foldl (loopBody c i j) s).temp = Scalar.nonfinite := by
  induction ks generalizing s with
  | nil => exact ⟨hdc, htemp⟩
  | cons k ks ih =>
    by_cases h : j = k
    · subst h
      simpa [loopBody_self] using ih s hdc htemp
    · rw [List.foldl_cons]
      apply ih
      · simp [loopBody_of_ne c i j k s h, hdc, htemp]
      · simp [loopBody_of_ne c i j k s h, htemp]

/-- A zero divisor among the indices makes both variables non-finite. -/
theorem foldl_loopBody_zero_divisor (c : List ℚ) (i j : ℕ) (ks : List ℕ) (s : LoopState)
    (h : ∃ k ∈ ks, j ≠ k ∧ dt c j k = 0) :
    (ks.foldl (loopBody c i j) s).dc_j_i = Scalar.nonfinite ∧
      (ks.foldl (loopBody c i j) s).temp = Scalar.nonfinite := by
  induction ks generalizing s with
  | nil => simp at h
  | cons k ks ih =>
    rw [List.foldl_cons]
    by_cases hk : j ≠ k ∧ dt c j k = 0
    · apply foldl_loopBody_nonfinite
      · simp [loopBody_of_ne c i j k s hk.1, hk.2]
      · simp [loopBody_of_ne c i j k s hk.1, hk.2]
    · apply ih
      obtain ⟨k', hk', hne, hz⟩ := h
      rcases List.mem_cons.1 hk' with rfl | hmem
      · exact absurd ⟨hne, hz⟩ hk
      · exact ⟨k', hmem, hne, hz⟩

/-- The invariant of the loop over `k`: with nonzero divisors, `temp` is the
value and `dc_j_i` the derivative, at `c(i)`, of the product of the factors
`(X - c(k)) / (c(j) - c(k))` met so far. -/
theorem foldl_loopBody_poly (c : List ℚ) (i j : ℕ) (ks : List ℕ) (s : LoopState) (P : ℚ[X])
    (hdc : s.dc_j_i = Scalar.finite ((derivative P).eval (point c i)))
    (htemp : s.temp = Scalar.finite (P.eval (point c i)))
    (hne : ∀ k ∈ ks, j ≠ k → dt c j k ≠ 0) :
    (ks.foldl (loopBody c i j) s).dc_j_i =
        Scalar.finite ((derivative (P * ((ks.filter fun k => j ≠ k).map fun k =>
          Lagrange.basisDivisor (point c j) (point c k)).prod)).eval (point c i)) ∧
      (ks.foldl (loopBody c i j) s).temp =
        Scalar.finite ((P * ((ks.filter fun k => j ≠ k).map fun k =>
          Lagrange.basisDivisor (point c j) (point c k)).prod).eval (point c i)) := by
  induction ks generalizing s P with
  | nil => simpa using ⟨hdc, htemp⟩
  | cons k ks ih =>
    rw [List.foldl_cons]
    by_cases h : j = k
    · subst h
      have := ih s P hdc htemp (fun k hk => hne k (List.mem_cons_of_mem _ hk))
      simpa [loopBody_self] using this
    · have hd : dt c j k ≠ 0 := hne k (List.mem_cons_self _ _) h
      have hd' : point c j - point c k ≠ 0 := hd
      have := ih (loopBody c i j s k) (P * Lagrange.basisDivisor (point c j) (point c k))
        (by
          simp only [loopBody_of_ne c i j k s h, hdc, htemp, Scalar.finite_mul,
            Scalar.finite_add, Scalar.finite_div_of_ne _ hd]
          congr 1
          simp only [Lagrange.basisDivisor, derivative_mul, derivative_C, derivative_sub,
            derivative_X, eval_add, eval_mul, eval_C, eval_sub, eval_X, dt]
          field_simp
          ring)
        (by
          simp only [loopBody_of_ne c i j k s h, htemp, Scalar.finite_mul,
            Scalar.finite_div_of_ne _ hd]
          congr 1
          simp only [Lagrange.basisDivisor, eval_mul, eval_C, eval_sub, eval_X, dt]
          field_simp)
        (fun k hk => hne k (List.mem_cons_of_mem _ hk))
      simpa [h, mul_assoc] using this

/-! ## The entries of the matrix -/

theorem prod_filter_range (n j : ℕ) (f : ℕ → ℚ[X]) :
    (((List.range n).filter fun k => j ≠ k).map f).prod =
      ∏ k ∈ (Finset.range n).erase j, f k := by
  have hnd : ((List.range n).filter fun k => j ≠ k).Nodup :=
    (List.nodup_range n).filter _
  rw [← List.prod_toFinset f hnd]
  congr 1
  ext k
  simp only [List.mem_toFinset, List.mem_filter, List.mem_range, Finset.mem_erase,
    Finset.mem_range, decide_eq_true_eq]
  constructor
  · rintro ⟨h1, h2⟩
    exact ⟨fun h => h2 h.symm, h1⟩
  · rintro ⟨h1, h2⟩
    exact ⟨h2, fun h => h1 h.symm⟩

theorem length_lagrangeDerivativeCoefficients (c : List ℚ) :
    (lagrangeDerivativeCoefficients c).length = c.length := by
  simp [lagrangeDerivativeCoefficients]

theorem length_row_lagrangeDerivativeCoefficients (c : List ℚ) (row : List Scalar)
    (h : row ∈ lagrangeDerivativeCoefficients c) : row.length = c.length := by
  simp only [lagrangeDerivativeCoefficients, List.mem_map] at h
  obtain ⟨j, -, rfl⟩ := h
  simp

/-- Cell `(j, i)` of the matrix holds the `dc_j_i` of its loop over `k`. -/
theorem coeff_lagrangeDerivativeCoefficients (c : List ℚ) {j i : ℕ}
    (hj : j < c.length) (hi : i < c.length) :
    coeff (lagrangeDerivativeCoefficients c) j i = (innerLoop c i j).dc_j_i := by
  simp [coeff, lagrangeDerivativeCoefficients, List.getD_eq_getElem?_getD, hj, hi]

/-- The loop of row `j` with `c(j)` different from the other points: the final
`dc_j_i` and `temp` are the derivative and the value at `c(i)` of the Lagrange
basis polynomial `j`. -/
theorem innerLoop_of_distinct (c : List ℚ) (i j : ℕ)
    (h : ∀ k, k < c.length → j ≠ k → point c j ≠ point c k) :
    (innerLoop c i j).dc_j_i = Scalar.finite ((derivative
        (Lagrange.basis (Finset.range c.length) (point c) j)).eval (point c i)) ∧
      (innerLoop c i j).temp = Scalar.finite
        ((Lagrange.basis (Finset.range c.length) (point c) j).eval (point c i)) := by
  have := foldl_loopBody_poly c i j (List.range c.length) ⟨0, 1, []⟩ 1
    (by simp) (by simp)
    (fun k hk hjk => sub_ne_zero.2 (h k (List.mem_range.1 hk) hjk))
  rw [one_mul, prod_filter_range] at this
  exact this

/-- The loop of row `j` with `c(j)` equal to another point ends non-finite. -/
theorem innerLoop_of_duplicate (c : List ℚ) (i j : ℕ)
    (h : ∃ k, k < c.length ∧ j ≠ k ∧ point c j = point c k) :
    (innerLoop c i j).dc_j_i = Scalar.nonfinite ∧
      (innerLoop c i j).temp = Scalar.nonfinite := by
  obtain ⟨k, hk, hjk, heq⟩ := h
  exact foldl_loopBody_zero_divisor c i j _ _
    ⟨k, List.mem_range.2 hk, hjk, sub_eq_zero.2 heq⟩

theorem point_eq_get (c : List ℚ) {i : ℕ} (hi : i < c.length) :
    point c i = c.get ⟨i, hi⟩ := by
  simp [point, List.getD_eq_getElem?_getD, hi]

/-- Pairwise distinct points: `point c` is injective on the indices. -/
theorem nodup_iff_point (c : List ℚ) :
    c.Nodup ↔ ∀ j k, j < c.length → k < c.length → j ≠ k → point c j ≠ point c k := by
  constructor
  · intro hc j k hj hk hjk heq
    rw [point_eq_get c hj, point_eq_get c hk] at heq
    exact hjk (Fin.mk.inj ((List.nodup_iff_injective_get.1 hc) heq))
  · intro h
    rw [List.nodup_iff_injective_get]
    intro a b hab
    by_contra hne
    apply h a.1 b.1 a.2 b.2 (fun h' => hne (Fin.ext h'))
    rw [point_eq_get c a.2, point_eq_get c b.2]
    exact hab

theorem injOn_point (c : List ℚ) (hc : c.Nodup) :
    Set.InjOn (point c) (Finset.range c.length : Finset ℕ) := by
  intro a ha b hb hab
  by_contra hne
  exact (nodup_iff_point c).1 hc a b (Finset.mem_range.1 ha) (Finset.mem_range.1 hb) hne hab

/-- With pairwise distinct points every entry is the derivative of a Lagrange
basis polynomial at a point. -/
theorem coeff_of_nodup (c : List ℚ) (hc : c.Nodup) {j i : ℕ}
    (hj : j < c.length) (hi : i < c.length) :
    coeff (lagrangeDerivativeCoefficients c) j i = Scalar.finite ((derivative
      (Lagrange.basis (Finset.range c.length) (point c) j)).eval (point c i)) := by
  rw [coeff_lagrangeDerivativeCoefficients c hj hi]
  exact (innerLoop_of_distinct c i j
    (fun k hk hjk => (nodup_iff_point c).1 hc j k hj hk hjk)).1

/-! ## Sums of scalars -/

theorem sum_map_finite (l : List ℕ) (f : ℕ → ℚ) :
    (l.map fun j => Scalar.finite (f j)).sum = Scalar.finite (l.map f).sum := by
  induction l with
  | nil => rfl
  | cons a l ih => simp [ih]

theorem sum_map_range (n : ℕ) (f : ℕ → ℚ) :
    ((List.range n).map f).sum = ∑ j ∈ Finset.range n, f j := by
  induction n with
  | zero => simp
  | succ n ih => simp [List.range_succ, Finset.sum_range_succ, ih]

/-- Differentiating the Lagrange interpolation formula: for a polynomial of
degree below the number of (distinct) nodes, the samples weighted by the
derivatives of the basis polynomials give the derivative. -/
theorem sum_eval_mul_derivative_basis (n : ℕ) (v : ℕ → ℚ)
    (hv : Set.InjOn v (Finset.range n : Finset ℕ)) (p : ℚ[X]) (hp : p.degree < n) (x : ℚ) :
    ∑ j ∈ Finset.range n,
        p.eval (v j) * (derivative (Lagrange.basis (Finset.range n) v j)).eval x =
      (derivative p).eval x := by
  have h := Lagrange.eq_interpolate hv (f := p) (by simpa using hp)
  conv_rhs => rw [h]
  simp [Lagrange.interpolate_apply, derivative_sum, eval_finset_sum]

theorem degree_lt_of_natDegree_le (p : ℚ[X]) {n : ℕ} (hn : 1 ≤ n) (hp : p.natDegree ≤ n - 1) :
    p.degree < n := by
  refine lt_of_le_of_lt degree_le_natDegree ?_
  exact_mod_cast (by omega : p.natDegree < n)

/-- Column `i` of the product of a row of finite samples with the matrix. -/
theorem column_sum_of_nodup (c : List ℚ) (hc : c.Nodup) (f : ℕ → ℚ) {i : ℕ}
    (hi : i < c.length) :
    ((List.range c.length).map fun j =>
        Scalar.finite (f j) * coeff (lagrangeDerivativeCoefficients c) j i).sum =
      Scalar.finite (∑ j ∈ Finset.range c.length, f j * (derivative
        (Lagrange.basis (Finset.range c.length) (point c) j)).eval (point c i)) := by
  rw [← sum_map_range, ← sum_map_finite]
  congr 1
  apply List.map_congr_left
  intro j hj
  rw [coeff_of_nodup c hc (List.mem_range.1 hj) hi, Scalar.finite_mul]

theorem rowTimes_of_nodup (c : List ℚ) (hc : c.Nodup) (f g : ℚ → ℚ)
    (h : ∀ i, i < c.length → ∑ j ∈ Finset.range c.length, f (point c j) * (derivative
        (Lagrange.basis (Finset.range c.length) (point c) j)).eval (point c i) =
      g (point c i)) :
    rowTimes (c.map fun x => Scalar.finite (f x)) (lagrangeDerivativeCoefficients c) =
      c.map fun x => Scalar.finite (g x) := by
  apply List.ext_getElem
  · simp [rowTimes]
  · intro i h1 h2
    have hi : i < c.length := by simpa using h2
    simp only [rowTimes, List.getElem_map, List.getElem_range, List.length_map]
    have hci : c.get ⟨i, hi⟩ = point c i := (point_eq_get c hi).symm
    simp only [List.get_eq_getElem] at hci
    rw [hci, ← h i hi, ← column_sum_of_nodup c hc (fun j => f (point c j)) hi]
    congr 1
    apply List.map_congr_left
    intro j hj
    have hj' : j < c.length := List.mem_range.1 hj
    congr 1
    simp [point, List.getD_eq_getElem?_getD, hj']

/-! ## The differentiation matrix on polynomials -/

/-- C1, exactness law: for pairwise distinct points `c` (at least one) and a
polynomial `p` of degree at most `n_c - 1`, the row of samples of `p` times the
matrix is the row of samples of the derivative of `p`; column by column, the
sum over `j` of `p(c(j)) * D(j, i)` is `p'(c(i))`. -/
theorem exactness_law (c : List ℚ) (hn : 1 ≤ c.length) (hc : c.Nodup) (p : ℚ[X])
    (hp : p.natDegree ≤ c.length - 1) :
    rowTimes (c.map fun x => Scalar.finite (p.eval x)) (lagrangeDerivativeCoefficients c) =
        c.map (fun x => Scalar.finite ((derivative p).eval x)) ∧
      ∀ i, i < c.length →
        ((List.range c.length).map fun j => Scalar.finite (p.eval (point c j)) *
            coeff (lagrangeDerivativeCoefficients c) j i).sum =
          Scalar.finite ((derivative p).eval (point c i)) := by
  have hdeg : p.degree < c.length := degree_lt_of_natDegree_le p hn hp
  have key : ∀ i, i < c.length → ∑ j ∈ Finset.range c.length, p.eval (point c j) *
      (derivative (Lagrange.basis (Finset.range c.length) (point c) j)).eval (point c i) =
        (derivative p).eval (point c i) :=
    fun i _ => sum_eval_mul_derivative_basis c.length (point c) (injOn_point c hc) p hdeg _
  refine ⟨rowTimes_of_nodup c hc (fun x => p.eval x) (fun x => (derivative p).eval x) key, ?_⟩
  intro i hi
  rw [column_sum_of_nodup c hc (fun j => p.eval (point c j)) hi, key i hi]

/-- The exactness law at the points `0, 1/2, 1` and the polynomial `X ^ 2`. -/
theorem exactness_law_witness :
    1 ≤ ([0, 1 / 2, 1] : List ℚ).length ∧ ([0, 1 / 2, 1] : List ℚ).Nodup ∧
      (X ^ 2 : ℚ[X]).natDegree ≤ ([0, 1 / 2, 1] : List ℚ).length - 1 ∧
      (rowTimes (([0, 1 / 2, 1] : List ℚ).map fun x => Scalar.finite ((X ^ 2 : ℚ[X]).eval x))
          (lagrangeDerivativeCoefficients [0, 1 / 2, 1]) =
        ([0, 1 / 2, 1] : List ℚ).map (fun x =>
          Scalar.finite ((derivative (X ^ 2 : ℚ[X])).eval x)) ∧
      ∀ i, i < ([0, 1 / 2, 1] : List ℚ).length →
        ((List.range ([0, 1 / 2, 1] : List ℚ).length).map fun j =>
            Scalar.finite ((X ^ 2 : ℚ[X]).eval (point [0, 1 / 2, 1] j)) *
              coeff (lagrangeDerivativeCoefficients [0, 1 / 2, 1]) j i).sum =
          Scalar.finite ((derivative (X ^ 2 : ℚ[X])).eval (point [0, 1 / 2, 1] i))) :=
  ⟨by decide, by norm_num, by simp,
    exactness_law [0, 1 / 2, 1] (by decide) (by norm_num) (X ^ 2) (by simp)⟩

/-- C2, entry semantics: for pairwise distinct points and `j, i < n_c` there is
exactly one polynomial of degree at most `n_c - 1` that is 1 at `c(j)` and 0 at
every other point, its degree is `n_c - 1`, and cell `(j, i)` of the matrix is
its derivative at `c(i)`. -/
theorem entry_semantics (c : List ℚ) (hc : c.Nodup) (j i : ℕ)
    (hj : j < c.length) (hi : i < c.length) :
    ∃ L : ℚ[X], L.natDegree = c.length - 1 ∧
      (∀ k, k < c.length → L.eval (point c k) = if k = j then 1 else 0) ∧
      (∀ L' : ℚ[X], L'.natDegree ≤ c.length - 1 →
        (∀ k, k < c.length → L'.eval (point c k) = if k = j then 1 else 0) → L' = L) ∧
      coeff (lagrangeDerivativeCoefficients c) j i =
        Scalar.finite ((derivative L).eval (point c i)) := by
  have hinj := injOn_point c hc
  have hjm : j ∈ Finset.range c.length := Finset.mem_range.2 hj
  have hn : 1 ≤ c.length := by omega
  have hL : ∀ k, k < c.length →
      (Lagrange.basis (Finset.range c.length) (point c) j).eval (point c k) =
        if k = j then 1 else 0 := by
    intro k hk
    by_cases hkj : k = j
    · subst hkj
      simp [Lagrange.eval_basis_self hinj hjm]
    · simp [hkj, Lagrange.eval_basis_of_ne (v := point c) (Ne.symm hkj) (Finset.mem_range.2 hk)]
  have hdeg : (Lagrange.basis (Finset.range c.length) (point c) j).natDegree = c.length - 1 := by
    simpa using Lagrange.natDegree_basis hinj hjm
  refine ⟨Lagrange.basis (Finset.range c.length) (point c) j, hdeg, hL, ?_,
    coeff_of_nodup c hc hj hi⟩
  intro L' hdeg' hL'
  apply Polynomial.eq_of_degrees_lt_of_eval_index_eq (Finset.range c.length) hinj
  · simpa using degree_lt_of_natDegree_le L' hn hdeg'
  · simpa using degree_lt_of_natDegree_le _ hn (le_of_eq hdeg)
  · intro k hk
    rw [hL' k (Finset.mem_range.1 hk), hL k (Finset.mem_range.1 hk)]

/-- Entry semantics at the points `0, 1/2, 1`, row 0, column 2. -/
theorem entry_semantics_witness :
    ([0, 1 / 2, 1] : List ℚ).Nodup ∧ 0 < ([0, 1 / 2, 1] : List ℚ).length ∧
      2 < ([0, 1 / 2, 1] : List ℚ).length ∧
      ∃ L : ℚ[X], L.natDegree = ([0, 1 / 2, 1] : List ℚ).length - 1 ∧
        (∀ k, k < ([0, 1 / 2, 1] : List ℚ).length →
          L.eval (point [0, 1 / 2, 1] k) = if k = 0 then 1 else 0) ∧
        (∀ L' : ℚ[X], L'.natDegree ≤ ([0, 1 / 2, 1] : List ℚ).length - 1 →
          (∀ k, k < ([0, 1 / 2, 1] : List ℚ).length →
            L'.eval (point [0, 1 / 2, 1] k) = if k = 0 then 1 else 0) → L' = L) ∧
        coeff (lagrangeDerivativeCoefficients [0, 1 / 2, 1]) 0 2 =
          Scalar.finite ((derivative L).eval (point [0, 1 / 2, 1] 2)) :=
  ⟨by norm_num, by decide, by decide,
    entry_semantics [0, 1 / 2, 1] (by norm_num) 0 2 (by decide) (by decide)⟩

theorem finite_one_mul (s : Scalar) : Scalar.finite 1 * s = s := by
  cases s
  · simp
  · rfl

/-- C3, constant-function law: for pairwise distinct points (at least one) the
all-ones row times the matrix is the all-zero row: every column of the matrix
sums to 0. -/
theorem constant_function_law (c : List ℚ) (hn : 1 ≤ c.length) (hc : c.Nodup) :
    rowTimes (List.replicate c.length 1) (lagrangeDerivativeCoefficients c) =
        List.replicate c.length 0 ∧
      ∀ i, i < c.length →
        ((List.range c.length).map fun j =>
          coeff (lagrangeDerivativeCoefficients c) j i).sum = 0 := by
  have key : ∀ i, i < c.length → ∑ j ∈ Finset.range c.length, (1 : ℚ) *
      (derivative (Lagrange.basis (Finset.range c.length) (point c) j)).eval (point c i) =
        0 := by
    intro i _
    have h := sum_eval_mul_derivative_basis c.length (point c) (injOn_point c hc) 1
      (by
        rw [degree_one]
        exact_mod_cast hn) (point c i)
    simpa using h
  constructor
  · have h := rowTimes_of_nodup c hc (fun _ => 1) (fun _ => 0) key
    simpa [List.map_const'] using h
  · intro i hi
    have h := column_sum_of_nodup c hc (fun _ => 1) hi
    rw [key i hi] at h
    simpa [finite_one_mul] using h

/-- The constant-function law at the points `0, 1/2, 1`. -/
theorem constant_function_law_witness :
    1 ≤ ([0, 1 / 2, 1] : List ℚ).length ∧ ([0, 1 / 2, 1] : List ℚ).Nodup ∧
      (rowTimes (List.replicate ([0, 1 / 2, 1] : List ℚ).length 1)
          (lagrangeDerivativeCoefficients [0, 1 / 2, 1]) =
        List.replicate ([0, 1 / 2, 1] : List ℚ).length 0 ∧
      ∀ i, i < ([0, 1 / 2, 1] : List ℚ).length →
        ((List.range ([0, 1 / 2, 1] : List ℚ).length).map fun j =>
          coeff (lagrangeDerivativeCoefficients [0, 1 / 2, 1]) j i).sum = 0) :=
  ⟨by decide, by norm_num, constant_function_law [0, 1 / 2, 1] (by decide) (by norm_num)⟩

/-- C4, worked example: for the points `0, 1/2, 1` the samples `0, 1/4, 1` of
`t ^ 2` times the matrix give exactly `0, 1, 2`. -/
theorem worked_example :
    rowTimes [Scalar.finite 0, Scalar.finite (1 / 4), Scalar.finite 1]
        (lagrangeDerivativeCoefficients [0, 1 / 2, 1]) =
      [Scalar.finite 0, Scalar.finite 1, Scalar.finite 2] := by
  simp [rowTimes, coeff, lagrangeDerivativeCoefficients, innerLoop, List.range_succ, loopBody,
    dt, point, Scalar.finite_div]
  norm_num

/-! ## Equal points and zero divisors -/

/-- An entry of row `j` is non-finite exactly when `c(j)` equals another point. -/
theorem coeff_nonfinite_iff (c : List ℚ) {j i : ℕ} (hj : j < c.length) (hi : i < c.length) :
    coeff (lagrangeDerivativeCoefficients c) j i = Scalar.nonfinite ↔
      ∃ k, k < c.length ∧ j ≠ k ∧ point c j = point c k := by
  rw [coeff_lagrangeDerivativeCoefficients c hj hi]
  constructor
  · intro h
    by_contra hno
    have hd := (innerLoop_of_distinct c i j (fun k hk hjk heq => hno ⟨k, hk, hjk, heq⟩)).1
    rw [h] at hd
    exact Scalar.noConfusion hd
  · intro h
    exact (innerLoop_of_duplicate c i j h).1

theorem isFinite_iff_ne (s : Scalar) : s.isFinite = true ↔ s ≠ Scalar.nonfinite := by
  cases s <;> simp [Scalar.isFinite]

/-- The divisors of a call are the `dt(j, k)` with `j ≠ k`. -/
theorem mem_divisorsUsed (c : List ℚ) (d : ℚ) :
    d ∈ divisorsUsed c ↔ ∃ j k, j < c.length ∧ k < c.length ∧ j ≠ k ∧ d = dt c j k := by
  simp only [divisorsUsed, innerLoop, foldl_loopBody_divisors, List.mem_flatMap, List.mem_range,
    List.nil_append, List.mem_filter, decide_eq_true_eq, List.mem_cons, List.mem_singleton,
    or_self, List.not_mem_nil, or_false]
  constructor
  · rintro ⟨i, -, j, hj, k, ⟨hk, hjk⟩, rfl⟩
    exact ⟨j, k, hj, hk, hjk, rfl⟩
  · rintro ⟨j, k, hj, hk, hjk, rfl⟩
    exact ⟨0, by omega, j, hj, k, ⟨hk, hjk⟩, rfl⟩

/-- C5 as stated fails: at the points `0, 1/2, 1/2` the call reports no
failure, it returns a matrix whose rows 1 and 2 are non-finite. -/
theorem duplicate_points_not_rejected :
    build [0, 1 / 2, 1 / 2] ≠ Except.error BuildError.DegenerateInputError ∧
      build [0, 1 / 2, 1 / 2] = Except.ok
        [[Scalar.finite (-4), Scalar.finite 0, Scalar.finite 0],
         [Scalar.nonfinite, Scalar.nonfinite, Scalar.nonfinite],
         [Scalar.nonfinite, Scalar.nonfinite, Scalar.nonfinite]] := by
  refine ⟨fun h => by simp [build] at h, ?_⟩
  simp [build, lagrangeDerivativeCoefficients, innerLoop, List.range_succ, loopBody, dt, point,
    Scalar.finite_div]
  norm_num

/-- C5 amended: when two entries of the points at different indices are equal,
the call reports no failure; it returns an `n_c` by `n_c` matrix, in which the
rows of the two equal points are non-finite throughout. -/
theorem duplicate_points_nonfinite_rows (c : List ℚ) (a b : ℕ) (ha : a < c.length)
    (hb : b < c.length) (hab : a ≠ b) (heq : point c a = point c b) :
    ∃ m, build c = Except.ok m ∧ m.length = c.length ∧
      (∀ row, row ∈ m → row.length = c.length) ∧
      ∀ i, i < c.length → coeff m a i = Scalar.nonfinite ∧ coeff m b i = Scalar.nonfinite := by
  refine ⟨lagrangeDerivativeCoefficients c, rfl, length_lagrangeDerivativeCoefficients c,
    length_row_lagrangeDerivativeCoefficients c, ?_⟩
  intro i hi
  exact ⟨(coeff_nonfinite_iff c ha hi).2 ⟨b, hb, hab, heq⟩,
    (coeff_nonfinite_iff c hb hi).2 ⟨a, ha, hab.symm, heq.symm⟩⟩

/-- The amended C5 at the points `0, 1/2, 1/2`, whose entries 1 and 2 are equal. -/
theorem duplicate_points_nonfinite_rows_witness :
    1 < ([0, 1 / 2, 1 / 2] : List ℚ).length ∧ 2 < ([0, 1 / 2, 1 / 2] : List ℚ).length ∧
      1 ≠ 2 ∧ point [0, 1 / 2, 1 / 2] 1 = point [0, 1 / 2, 1 / 2] 2 ∧
      ∃ m, build [0, 1 / 2, 1 / 2] = Except.ok m ∧
        m.length = ([0, 1 / 2, 1 / 2] : List ℚ).length ∧
        (∀ row, row ∈ m → row.length = ([0, 1 / 2, 1 / 2] : List ℚ).length) ∧
        ∀ i, i < ([0, 1 / 2, 1 / 2] : List ℚ).length →
          coeff m 1 i = Scalar.nonfinite ∧ coeff m 2 i = Scalar.nonfinite :=
  ⟨by decide, by decide, by decide, by simp [point],
    duplicate_points_nonfinite_rows [0, 1 / 2, 1 / 2] 1 2 (by decide) (by decide) (by decide)
      (by simp [point])⟩

/-- C6, division safety and its converse: the divisors of a call are the
`dt(j, k)` with `j ≠ k`; all of them are nonzero exactly when the points are
pairwise distinct, and exactly then no entry of the matrix is the non-finite
result of a division by zero. -/
theorem division_safety (c : List ℚ) :
    (∀ d, d ∈ divisorsUsed c ↔
        ∃ j k, j < c.length ∧ k < c.length ∧ j ≠ k ∧ d = dt c j k) ∧
      ((∀ d, d ∈ divisorsUsed c → d ≠ 0) ↔ c.Nodup) ∧
      ((∀ j k, j < c.length → k < c.length → j ≠ k → dt c j k ≠ 0) ↔ c.Nodup) ∧
      ((∀ j i, j < c.length → i < c.length →
        (coeff (lagrangeDerivativeCoefficients c) j i).isFinite = true) ↔ c.Nodup) := by
  have hdt : (∀ j k, j < c.length → k < c.length → j ≠ k → dt c j k ≠ 0) ↔ c.Nodup := by
    rw [nodup_iff_point]
    simp only [dt, ne_eq, sub_eq_zero]
  refine ⟨mem_divisorsUsed c, ?_, hdt, ?_⟩
  · rw [← hdt]
    constructor
    · intro h j k hj hk hjk
      exact h _ ((mem_divisorsUsed c _).2 ⟨j, k, hj, hk, hjk, rfl⟩)
    · intro h d hd
      obtain ⟨j, k, hj, hk, hjk, rfl⟩ := (mem_divisorsUsed c d).1 hd
      exact h j k hj hk hjk
  · rw [nodup_iff_point]
    constructor
    · intro h j k hj hk hjk heq
      have := h j 0 hj (by omega)
      rw [isFinite_iff_ne] at this
      exact this ((coeff_nonfinite_iff c hj (by omega)).2 ⟨k, hk, hjk, heq⟩)
    · intro h j i hj hi
      rw [isFinite_iff_ne]
      intro hnf
      obtain ⟨k, hk, hjk, heq⟩ := (coeff_nonfinite_iff c hj hi).1 hnf
      exact h j k hj hk hjk heq

/-! ## The generator -/

/-- For more than one point the generator divides the values `0, ..., n_c - 1`
of `LinSpaced` by `n_c - 1`, which is not zero. -/
theorem generateCollocationPoints_eq (n_c : ℕ) (h : 1 < n_c) :
    generateCollocationPoints n_c =
      ((List.range n_c).map fun i : ℕ => (i : ℚ) / ((n_c : ℚ) - 1)).map Scalar.finite := by
  have hne : (n_c : ℚ) - 1 ≠ 0 := by
    have : (1 : ℚ) < n_c := by exact_mod_cast h
    linarith
  have h1 : n_c ≠ 1 := by omega
  simp only [generateCollocationPoints, linSpaced, h1, if_false, List.map_map]
  apply List.map_congr_left
  intro i _
  simp only [Function.comp, Scalar.finite_div_of_ne _ hne, sub_zero, zero_add,
    div_self hne, mul_one]

theorem spacing_lt (n_c : ℕ) (h : 1 < n_c) {a b : ℕ} (hab : a < b) :
    (a : ℚ) / ((n_c : ℚ) - 1) < (b : ℚ) / ((n_c : ℚ) - 1) := by
  have hpos : (0 : ℚ) < (n_c : ℚ) - 1 := by
    have : (1 : ℚ) < n_c := by exact_mod_cast h
    linarith
  have : (a : ℚ) < b := by exact_mod_cast hab
  exact div_lt_div_of_pos_right this hpos

/-- C7, generator values: for `n_c > 1` the generator returns `n_c` values, the
one of index `i` being `i / (n_c - 1)`; the first is 0 and the last is 1; for
`n_c = 5` they are `0, 1/4, 1/2, 3/4, 1`. -/
theorem generator_values (n_c : ℕ) (h : 1 < n_c) :
    (generateCollocationPoints n_c).length = n_c ∧
      (∀ i : ℕ, i < n_c → (generateCollocationPoints n_c).get? i =
        some (Scalar.finite ((i : ℚ) / ((n_c : ℚ) - 1)))) ∧
      (generateCollocationPoints n_c).head? = some (Scalar.finite 0) ∧
      (generateCollocationPoints n_c).getLast? = some (Scalar.finite 1) ∧
      generateCollocationPoints 5 = [Scalar.finite 0, Scalar.finite (1 / 4),
        Scalar.finite (1 / 2), Scalar.finite (3 / 4), Scalar.finite 1] := by
  have hne : (n_c : ℚ) - 1 ≠ 0 := by
    have : (1 : ℚ) < n_c := by exact_mod_cast h
    linarith
  refine ⟨?_, ?_, ?_, ?_, ?_⟩
  · simp [generateCollocationPoints_eq n_c h]
  · intro i hi
    simp [generateCollocationPoints_eq n_c h, List.getElem?_range hi]
  · obtain ⟨m, rfl⟩ : ∃ m, n_c = m + 1 := ⟨n_c - 1, by omega⟩
    rw [generateCollocationPoints_eq _ h, List.range_succ_eq_map]
    simp
  · obtain ⟨m, rfl⟩ : ∃ m, n_c = m + 1 := ⟨n_c - 1, by omega⟩
    rw [generateCollocationPoints_eq _ h, List.range_succ]
    have hm : (m : ℚ) ≠ 0 := by simpa using hne
    simp [hm]
  · simp [generateCollocationPoints, linSpaced, List.range_succ, Scalar.finite_div]
    norm_num

/-- The generator values for three points. -/
theorem generator_values_witness :
    1 < 3 ∧ ((generateCollocationPoints 3).length = 3 ∧
      (∀ i : ℕ, i < 3 → (generateCollocationPoints 3).get? i =
        some (Scalar.finite ((i : ℚ) / (((3 : ℕ) : ℚ) - 1)))) ∧
      (generateCollocationPoints 3).head? = some (Scalar.finite 0) ∧
      (generateCollocationPoints 3).getLast? = some (Scalar.finite 1) ∧
      generateCollocationPoints 5 = [Scalar.finite 0, Scalar.finite (1 / 4),
        Scalar.finite (1 / 2), Scalar.finite (3 / 4), Scalar.finite 1]) :=
  ⟨by decide, generator_values 3 (by decide)⟩

/-- C8, generator monotonicity: for `n_c > 1` the generator returns finite
values that increase strictly from each index to the next; they are sorted and
pairwise distinct, and the matrix built from them has only finite entries. -/
theorem generator_monotone (n_c : ℕ) (h : 1 < n_c) :
    ∃ pts : List ℚ, generateCollocationPoints n_c = pts.map Scalar.finite ∧
      pts.length = n_c ∧
      (∀ i, i + 1 < n_c → point pts i < point pts (i + 1)) ∧
      pts.Sorted (fun a b => a < b) ∧ pts.Nodup ∧
      ∀ j i, j < n_c → i < n_c →
        (coeff (lagrangeDerivativeCoefficients pts) j i).isFinite = true := by
  have hsorted : ((List.range n_c).map fun i : ℕ => (i : ℚ) / ((n_c : ℚ) - 1)).Sorted
      (fun a b => a < b) := by
    rw [List.Sorted, List.pairwise_map]
    exact (List.pairwise_lt_range n_c).imp fun hab => spacing_lt n_c h hab
  have hnodup := hsorted.nodup
  have hlen : ((List.range n_c).map fun i : ℕ => (i : ℚ) / ((n_c : ℚ) - 1)).length = n_c := by
    simp
  refine ⟨_, generateCollocationPoints_eq n_c h, hlen, ?_, hsorted, hnodup, ?_⟩
  · intro i hi
    have hi' : i < n_c := by omega
    simp only [point, List.getD_eq_getElem?_getD, List.getElem?_map, List.getElem?_range hi,
      List.getElem?_range hi', Option.map_some', Option.getD_some]
    exact spacing_lt n_c h (Nat.lt_succ_self i)
  · intro j i hj hi
    rw [isFinite_iff_ne]
    intro hnf
    rw [coeff_nonfinite_iff _ (by rw [hlen]; exact hj) (by rw [hlen]; exact hi)] at hnf
    obtain ⟨k, hk, hjk, heq⟩ := hnf
    exact (nodup_iff_point _).1 hnodup j k (by rw [hlen]; exact hj) hk hjk heq

/-- Generator monotonicity for three points. -/
theorem generator_monotone_witness :
    1 < 3 ∧ ∃ pts : List ℚ, generateCollocationPoints 3 = pts.map Scalar.finite ∧
      pts.length = 3 ∧
      (∀ i, i + 1 < 3 → point pts i < point pts (i + 1)) ∧
      pts.Sorted (fun a b => a < b) ∧ pts.Nodup ∧
      ∀ j i, j < 3 → i < 3 →
        (coeff (lagrangeDerivativeCoefficients pts) j i).isFinite = true :=
  ⟨by decide, generator_monotone 3 (by decide)⟩

/-! ## A single point -/

/-- C9, single-point builder: for one point, whatever its value, the call
executes no division and returns the 1 by 1 matrix with entry 0. -/
theorem single_point_builder (x : ℚ) :
    lagrangeDerivativeCoefficients [x] = [[Scalar.finite 0]] ∧ divisorsUsed [x] = [] := by
  simp [lagrangeDerivativeCoefficients, divisorsUsed, innerLoop, loopBody, List.range_succ]

/-- C10 on the code: for `n_c = 1` line 11 divides the one value 0 of
`LinSpaced(1, 0, 0)` by `n_c - 1 = 0`, and the element returned is not 0 but
the non-finite `0 / 0`. -/
theorem single_point_generator_nonfinite :
    generateCollocationPoints 1 = [Scalar.nonfinite] ∧
      generateCollocationPoints 1 ≠ [Scalar.finite 0] := by
  simp [generateCollocationPoints, linSpaced]

/-! ## Size zero -/

/-- C11 as stated fails: for `n_c = 0` neither call reports `InvalidSizeError`. -/
theorem invalid_size_not_rejected :
    generate 0 ≠ Except.error BuildError.InvalidSizeError ∧
      build [] ≠ Except.error BuildError.InvalidSizeError := by
  constructor <;> intro h <;> simp [generate, build] at h

/-- C11 amended: for `n_c < 1` neither call reports a failure; the generator
returns the vector without elements and the builder, on the points without
elements, the matrix without rows. -/
theorem invalid_size_returns_empty (n_c : ℕ) (h : n_c < 1) (c : List ℚ) (hc : c.length < 1) :
    generate n_c = Except.ok [] ∧ build c = Except.ok [] := by
  have hn : n_c = 0 := by omega
  have hc0 : c = [] := List.length_eq_zero.1 (by omega)
  subst hn
  subst hc0
  simp [generate, build, generateCollocationPoints, linSpaced, lagrangeDerivativeCoefficients]

/-- The amended C11 at `n_c = 0` and the points without elements. -/
theorem invalid_size_returns_empty_witness :
    0 < 1 ∧ ([] : List ℚ).length < 1 ∧
      (generate 0 = Except.ok [] ∧ build [] = Except.ok []) :=
  ⟨by decide, by decide, invalid_size_returns_empty 0 (by decide) [] (by decide)⟩

/-! ## Orientation -/

/-- C16, orientation matters: for the points `0, 1/2, 1` the matrix is
`[[-3, -1, 1], [4, 0, -4], [-1, 1, 3]]`; its columns sum to 0 (the all-ones row
times the matrix is zero) while the matrix times the all-ones column is
`-3, 0, 3`, and the matrix times the column of samples of `t ^ 2` is not the
column `0, 1, 2` of derivative samples. -/
theorem orientation_matters :
    lagrangeDerivativeCoefficients [0, 1 / 2, 1] =
        [[Scalar.finite (-3), Scalar.finite (-1), Scalar.finite 1],
         [Scalar.finite 4, Scalar.finite 0, Scalar.finite (-4)],
         [Scalar.finite (-1), Scalar.finite 1, Scalar.finite 3]] ∧
      rowTimes [1, 1, 1] (lagrangeDerivativeCoefficients [0, 1 / 2, 1]) =
        [Scalar.finite 0, Scalar.finite 0, Scalar.finite 0] ∧
      timesColumn (lagrangeDerivativeCoefficients [0, 1 / 2, 1]) [1, 1, 1] =
        [Scalar.finite (-3), Scalar.finite 0, Scalar.finite 3] ∧
      timesColumn (lagrangeDerivativeCoefficients [0, 1 / 2, 1])
          [Scalar.finite 0, Scalar.finite (1 / 4), Scalar.finite 1] ≠
        [Scalar.finite 0, Scalar.finite 1, Scalar.finite 2] := by
  have hm : lagrangeDerivativeCoefficients [0, 1 / 2, 1] =
      [[Scalar.finite (-3), Scalar.finite (-1), Scalar.finite 1],
       [Scalar.finite 4, Scalar.finite 0, Scalar.finite (-4)],
       [Scalar.finite (-1), Scalar.finite 1, Scalar.finite 3]] := by
    simp [lagrangeDerivativeCoefficients, innerLoop, List.range_succ, loopBody, dt, point,
      Scalar.finite_div]
    norm_num
  rw [hm]
  refine ⟨rfl, ?_, ?_, ?_⟩
  · simp [rowTimes, coeff, List.range_succ]
    norm_num
  · simp [timesColumn, coeff, List.range_succ]
  · simp [timesColumn, coeff, List.range_succ]
    norm_num

/-! ## Shifted and scaled points -/

theorem point_map (c : List ℚ) (f : ℚ → ℚ) {i : ℕ} (hi : i < c.length) :
    point (c.map f) i = f (point c i) := by
  simp [point, List.getD_eq_getElem?_getD, hi]

theorem flatMap_congr_of_mem {α β : Type} (l : List α) (f g : α → List β)
    (h : ∀ x, x ∈ l → f x = g x) : l.flatMap f = l.flatMap g := by
  induction l with
  | nil => rfl
  | cons x l ih =>
    simp only [List.flatMap_cons]
    rw [h x (List.mem_cons_self _ _), ih fun y hy => h y (List.mem_cons_of_mem _ hy)]

theorem dt_map_add (c : List ℚ) (a : ℚ) {i k : ℕ} (hi : i < c.length) (hk : k < c.length) :
    dt (c.map fun x => x + a) i k = dt c i k := by
  simp only [dt, point_map c _ hi, point_map c _ hk]
  ring

theorem innerLoop_map_add (c : List ℚ) (a : ℚ) {i j : ℕ} (hi : i < c.length)
    (hj : j < c.length) : innerLoop (c.map fun x => x + a) i j = innerLoop c i j := by
  simp only [innerLoop, List.length_map]
  apply List.foldl_ext
  intro s k hk
  have hk' : k < c.length := List.mem_range.1 hk
  simp only [loopBody, dt_map_add c a hi hk', dt_map_add c a hj hk']

/-- C14, translation invariance: adding one constant to every point changes
neither the matrix returned, non-finite entries included, nor the divisors
used. -/
theorem translation_invariance (c : List ℚ) (a : ℚ) :
    lagrangeDerivativeCoefficients (c.map fun x => x + a) = lagrangeDerivativeCoefficients c ∧
      divisorsUsed (c.map fun x => x + a) = divisorsUsed c := by
  constructor
  · simp only [lagrangeDerivativeCoefficients, List.length_map]
    apply List.map_congr_left
    intro j hj
    apply List.map_congr_left
    intro i hi
    rw [innerLoop_map_add c a (List.mem_range.1 hi) (List.mem_range.1 hj)]
  · simp only [divisorsUsed, List.length_map]
    apply flatMap_congr_of_mem
    intro i hi
    apply flatMap_congr_of_mem
    intro j hj
    rw [innerLoop_map_add c a (List.mem_range.1 hi) (List.mem_range.1 hj)]

theorem dt_map_mul (c : List ℚ) (a : ℚ) {i k : ℕ} (hi : i < c.length) (hk : k < c.length) :
    dt (c.map fun x => a * x) i k = a * dt c i k := by
  simp only [dt, point_map c _ hi, point_map c _ hk]
  ring

/-- One step of the loop on the points scaled by `a`, against the same step on
the points: `temp` agrees and `dc_j_i` is divided by `a`. -/
theorem loopBody_map_mul (c : List ℚ) (a : ℚ) (ha : a ≠ 0) {i j k : ℕ} (hi : i < c.length)
    (hj : j < c.length) (hk : k < c.length) (s' s : LoopState)
    (htemp : s'.temp = s.temp) (hdc : s'.dc_j_i = Scalar.finite (1 / a) * s.dc_j_i) :
    (loopBody (c.map fun x => a * x) i j s' k).temp = (loopBody c i j s k).temp ∧
      (loopBody (c.map fun x => a * x) i j s' k).dc_j_i =
        Scalar.finite (1 / a) * (loopBody c i j s k).dc_j_i := by
  by_cases h : j = k
  · subst h
    simp [loopBody_self, htemp, hdc]
  · rw [loopBody_of_ne _ i j k s' h, loopBody_of_ne c i j k s h]
    simp only [dt_map_mul c a hi hk, dt_map_mul c a hj hk, htemp, hdc]
    by_cases hd : dt c j k = 0
    · simp [hd]
    · have had : a * dt c j k ≠ 0 := mul_ne_zero ha hd
      cases ht : s.temp <;> cases hs : s.dc_j_i <;>
        simp [Scalar.finite_div_of_ne _ hd, Scalar.finite_div_of_ne _ had]
      · constructor
        · field_simp
          ring
        · field_simp
          ring
      · field_simp
        ring

theorem foldl_loopBody_map_mul (c : List ℚ) (a : ℚ) (ha : a ≠ 0) {i j : ℕ} (hi : i < c.length)
    (hj : j < c.length) (ks : List ℕ) (hks : ∀ k, k ∈ ks → k < c.length) (s' s : LoopState)
    (htemp : s'.temp = s.temp) (hdc : s'.dc_j_i = Scalar.finite (1 / a) * s.dc_j_i) :
    (ks.foldl (loopBody (c.map fun x => a * x) i j) s').temp =
        (ks.foldl (loopBody c i j) s).temp ∧
      (ks.foldl (loopBody (c.map fun x => a * x) i j) s').dc_j_i =
        Scalar.finite (1 / a) * (ks.foldl (loopBody c i j) s).dc_j_i := by
  induction ks generalizing s' s with
  | nil => exact ⟨htemp, hdc⟩
  | cons k ks ih =>
    rw [List.foldl_cons, List.foldl_cons]
    have hstep := loopBody_map_mul c a ha hi hj (hks k (List.mem_cons_self _ _)) s' s htemp hdc
    exact ih (fun k' hk' => hks k' (List.mem_cons_of_mem _ hk')) _ _ hstep.1 hstep.2


/-- C15, scaling law: for pairwise distinct points and `a ≠ 0`, the matrix of
the points multiplied by `a` is the matrix of the points with every entry
multiplied by `1 / a`; all entries are finite. -/
theorem scaling_law (c : List ℚ) (hc : c.Nodup) (a : ℚ) (ha : a ≠ 0) :
    lagrangeDerivativeCoefficients (c.map fun x => a * x) =
        (lagrangeDerivativeCoefficients c).map
          (fun row => row.map fun s => Scalar.finite (1 / a) * s) ∧
      ∀ j i, j < c.length → i < c.length →
        ∃ d, coeff (lagrangeDerivativeCoefficients c) j i = Scalar.finite d ∧
          coeff (lagrangeDerivativeCoefficients (c.map fun x => a * x)) j i =
            Scalar.finite (1 / a * d) := by
  have key : ∀ j i, j < c.length → i < c.length →
      (innerLoop (c.map fun x => a * x) i j).dc_j_i =
        Scalar.finite (1 / a) * (innerLoop c i j).dc_j_i := by
    intro j i hj hi
    simp only [innerLoop, List.length_map]
    exact (foldl_loopBody_map_mul c a ha hi hj (List.range c.length)
      (fun k hk => List.mem_range.1 hk) _ _ rfl (by simp)).2
  constructor
  · simp only [lagrangeDerivativeCoefficients, List.length_map, List.map_map]
    apply List.map_congr_left
    intro j hj
    simp only [Function.comp, List.map_map]
    apply List.map_congr_left
    intro i hi
    exact key j i (List.mem_range.1 hj) (List.mem_range.1 hi)
  · intro j i hj hi
    refine ⟨_, coeff_of_nodup c hc hj hi, ?_⟩
    rw [coeff_lagrangeDerivativeCoefficients _ (by simpa using hj) (by simpa using hi),
      key j i hj hi, ← coeff_lagrangeDerivativeCoefficients c hj hi, coeff_of_nodup c hc hj hi,
      Scalar.finite_mul]

/-- The scaling law at the points `0, 1/2, 1` and the factor 2. -/
theorem scaling_law_witness :
    ([0, 1 / 2, 1] : List ℚ).Nodup ∧ (2 : ℚ) ≠ 0 ∧
      (lagrangeDerivativeCoefficients (([0, 1 / 2, 1] : List ℚ).map fun x => 2 * x) =
        (lagrangeDerivativeCoefficients [0, 1 / 2, 1]).map
          (fun row => row.map fun s => Scalar.finite (1 / 2) * s) ∧
      ∀ j i, j < ([0, 1 / 2, 1] : List ℚ).length → i < ([0, 1 / 2, 1] : List ℚ).length →
        ∃ d, coeff (lagrangeDerivativeCoefficients [0, 1 / 2, 1]) j i = Scalar.finite d ∧
          coeff (lagrangeDerivativeCoefficients
            (([0, 1 / 2, 1] : List ℚ).map fun x => 2 * x)) j i = Scalar.finite (1 / 2 * d)) :=
  ⟨by norm_num, by norm_num, scaling_law [0, 1 / 2, 1] (by norm_num) 2 (by norm_num)⟩

/-! ## Closed forms -/

theorem eval_basisDivisor (x a b : ℚ) :
    (Lagrange.basisDivisor a b).eval x = (x - b) / (a - b) := by
  simp only [Lagrange.basisDivisor, eval_mul, eval_C, eval_sub, eval_X]
  rw [div_eq_mul_inv, mul_comm]

/-- C12, the running value term: for pairwise distinct points and `j, i < n_c`,
after the first `K` rounds of the loop over `k` the variable `temp` is the
product over `k < K`, `k ≠ j` of `(c(i) - c(k)) / (c(j) - c(k))`; when the loop
has finished it is the Lagrange basis polynomial `j` at `c(i)`, which is 1 for
`i = j` and 0 otherwise. -/
theorem running_value_term (c : List ℚ) (hc : c.Nodup) (j i : ℕ) (hj : j < c.length)
    (hi : i < c.length) :
    (∀ K, K ≤ c.length → ((List.range K).foldl (loopBody c i j) ⟨0, 1, []⟩).temp =
        Scalar.finite (∏ k ∈ (Finset.range K).erase j,
          (point c i - point c k) / (point c j - point c k))) ∧
      innerLoop c i j = (List.range c.length).foldl (loopBody c i j) ⟨0, 1, []⟩ ∧
      (innerLoop c i j).temp = Scalar.finite
        ((Lagrange.basis (Finset.range c.length) (point c) j).eval (point c i)) ∧
      (innerLoop c i j).temp = Scalar.finite (if i = j then 1 else 0) := by
  have hdist : ∀ k, k < c.length → j ≠ k → point c j ≠ point c k :=
    fun k hk hjk => (nodup_iff_point c).1 hc j k hj hk hjk
  have hbasis := (innerLoop_of_distinct c i j hdist).2
  refine ⟨?_, rfl, hbasis, ?_⟩
  · intro K hK
    have h := (foldl_loopBody_poly c i j (List.range K) ⟨0, 1, []⟩ 1 (by simp) (by simp)
      (fun k hk hjk => sub_ne_zero.2
        (hdist k (lt_of_lt_of_le (List.mem_range.1 hk) hK) hjk))).2
    rw [h, one_mul, prod_filter_range, eval_prod]
    congr 1
    exact Finset.prod_congr rfl fun k _ => eval_basisDivisor _ _ _
  · rw [hbasis]
    congr 1
    by_cases hij : i = j
    · subst hij
      simp [Lagrange.eval_basis_self (injOn_point c hc) (Finset.mem_range.2 hi)]
    · simp [hij, Lagrange.eval_basis_of_ne (v := point c) (Ne.symm hij) (Finset.mem_range.2 hi)]

/-- The running value term at the points `0, 1/2, 1`, row 0, column 2. -/
theorem running_value_term_witness :
    ([0, 1 / 2, 1] : List ℚ).Nodup ∧ 0 < ([0, 1 / 2, 1] : List ℚ).length ∧
      2 < ([0, 1 / 2, 1] : List ℚ).length ∧
      ((∀ K, K ≤ ([0, 1 / 2, 1] : List ℚ).length →
        ((List.range K).foldl (loopBody [0, 1 / 2, 1] 2 0) ⟨0, 1, []⟩).temp =
          Scalar.finite (∏ k ∈ (Finset.range K).erase 0,
            (point [0, 1 / 2, 1] 2 - point [0, 1 / 2, 1] k) /
              (point [0, 1 / 2, 1] 0 - point [0, 1 / 2, 1] k))) ∧
      innerLoop [0, 1 / 2, 1] 2 0 =
        (List.range ([0, 1 / 2, 1] : List ℚ).length).foldl
          (loopBody [0, 1 / 2, 1] 2 0) ⟨0, 1, []⟩ ∧
      (innerLoop [0, 1 / 2, 1] 2 0).temp = Scalar.finite
        ((Lagrange.basis (Finset.range ([0, 1 / 2, 1] : List ℚ).length)
          (point [0, 1 / 2, 1]) 0).eval (point [0, 1 / 2, 1] 2)) ∧
      (innerLoop [0, 1 / 2, 1] 2 0).temp = Scalar.finite (if 2 = 0 then 1 else 0)) :=
  ⟨by norm_num, by decide, by decide,
    running_value_term [0, 1 / 2, 1] (by norm_num) 0 2 (by decide) (by decide)⟩


/-- The Lagrange basis polynomial as its weight times the nodal polynomial of
the other nodes. -/
theorem basis_eq_weight_mul_nodal (s : Finset ℕ) (v : ℕ → ℚ) (j : ℕ) :
    Lagrange.basis s v j =
      C (∏ k ∈ s.erase j, (v j - v k)⁻¹) * Lagrange.nodal (s.erase j) v := by
  simp_rw [Lagrange.basis, Lagrange.basisDivisor, Finset.prod_mul_distrib, map_prod,
    Lagrange.nodal]

/-- Derivative of the basis polynomial `j` at its own node. -/
theorem eval_derivative_basis_self (s : Finset ℕ) (v : ℕ → ℚ) (j : ℕ)
    (hv : ∀ k, k ∈ s.erase j → v j ≠ v k) :
    (derivative (Lagrange.basis s v j)).eval (v j) = ∑ k ∈ s.erase j, 1 / (v j - v k) := by
  rw [basis_eq_weight_mul_nodal, derivative_C_mul, eval_mul, eval_C, Lagrange.derivative_nodal,
    eval_finset_sum, Finset.mul_sum]
  apply Finset.sum_congr rfl
  intro k hk
  rw [Lagrange.eval_nodal, ← Finset.mul_prod_erase _ _ hk, mul_assoc, ← Finset.prod_mul_distrib,
    Finset.prod_eq_one, mul_one, one_div]
  intro l hl
  exact inv_mul_cancel₀ (sub_ne_zero.2 (hv l (Finset.mem_of_mem_erase hl)))

/-- Derivative of the basis polynomial `j` at another node `i`. -/
theorem eval_derivative_basis_of_ne (s : Finset ℕ) (v : ℕ → ℚ) (j i : ℕ)
    (hi : i ∈ s.erase j) :
    (derivative (Lagrange.basis s v j)).eval (v i) =
      1 / (v j - v i) * ∏ k ∈ (s.erase j).erase i, (v i - v k) / (v j - v k) := by
  rw [basis_eq_weight_mul_nodal, derivative_C_mul, eval_mul, eval_C,
    Lagrange.eval_nodal_derivative_eval_node_eq hi, Lagrange.eval_nodal,
    ← Finset.mul_prod_erase _ _ hi, mul_assoc, ← Finset.prod_mul_distrib, one_div]
  congr 1
  apply Finset.prod_congr rfl
  intro k _
  rw [div_eq_mul_inv, mul_comm]

/-- C13, closed form of the entries: for pairwise distinct points and
`j, i < n_c`, the diagonal cell `(j, j)` is the sum over `k ≠ j` of
`1 / (c(j) - c(k))`, and a cell `(j, i)` with `i ≠ j` is `1 / (c(j) - c(i))`
times the product over `k` other than `i` and `j` of
`(c(i) - c(k)) / (c(j) - c(k))`. -/
theorem closed_form_entries (c : List ℚ) (hc : c.Nodup) (j i : ℕ) (hj : j < c.length)
    (hi : i < c.length) :
    coeff (lagrangeDerivativeCoefficients c) j j = Scalar.finite
        (∑ k ∈ (Finset.range c.length).erase j, 1 / (point c j - point c k)) ∧
      (i ≠ j → coeff (lagrangeDerivativeCoefficients c) j i = Scalar.finite
        (1 / (point c j - point c i) * ∏ k ∈ ((Finset.range c.length).erase j).erase i,
          (point c i - point c k) / (point c j - point c k))) := by
  constructor
  · rw [coeff_of_nodup c hc hj hj, eval_derivative_basis_self]
    intro k hk
    exact (nodup_iff_point c).1 hc j k hj (Finset.mem_range.1 (Finset.mem_of_mem_erase hk))
      (Finset.ne_of_mem_erase hk).symm
  · intro hij
    rw [coeff_of_nodup c hc hj hi, eval_derivative_basis_of_ne]
    exact Finset.mem_erase.2 ⟨hij, Finset.mem_range.2 hi⟩

/-- The closed forms at the points `0, 1/2, 1`, row 0, column 2. -/
theorem closed_form_entries_witness :
    ([0, 1 / 2, 1] : List ℚ).Nodup ∧ 0 < ([0, 1 / 2, 1] : List ℚ).length ∧
      2 < ([0, 1 / 2, 1] : List ℚ).length ∧
      (coeff (lagrangeDerivativeCoefficients [0, 1 / 2, 1]) 0 0 = Scalar.finite
        (∑ k ∈ (Finset.range ([0, 1 / 2, 1] : List ℚ).length).erase 0,
          1 / (point [0, 1 / 2, 1] 0 - point [0, 1 / 2, 1] k)) ∧
      (2 ≠ 0 → coeff (lagrangeDerivativeCoefficients [0, 1 / 2, 1]) 0 2 = Scalar.finite
        (1 / (point [0, 1 / 2, 1] 0 - point [0, 1 / 2, 1] 2) *
          ∏ k ∈ ((Finset.range ([0, 1 / 2, 1] : List ℚ).length).erase 0).erase 2,
            (point [0, 1 / 2, 1] 2 - point [0, 1 / 2, 1] k) /
              (point [0, 1 / 2, 1] 0 - point [0, 1 / 2, 1] k)))) :=
  ⟨by norm_num, by decide, by decide,
    closed_form_entries [0, 1 / 2, 1] (by norm_num) 0 2 (by decide) (by decide)⟩

end Utils
